import Mathlib

/-!
Shallow embedding of the watched-interval progress tracker of
`video-track-FE` (`src/hooks/useVideoProgress.ts`, `src/services/api.ts`).

Numbers (fractional seconds, wall-clock milliseconds, percentages) are
modelled as rationals.  The mutable refs and React state cells of the hook
are gathered into an explicit `TrackerState` passed through each handler;
side effects (local-storage writes, remote writes, socket emits, error
logging) are emitted as an ordered `List Action`.  React state reads inside
one handler call see the value at entry (React state writes do not become
visible to closures until the next render), which matches how the model
threads `skippedAhead` through `calculateProgress`.
-/

namespace VideoTrack

/-- Watched interval `{start, end}` in fractional seconds
(`IInterval` in `src/services/api.ts`). -/
structure Interval where
  start : ℚ
  «end» : ℚ
deriving DecidableEq

/-- Record layout persisted in the browser's local storage
(`LocalStorageProgress` in `src/hooks/useVideoProgress.ts`). -/
structure LocalStorageProgress where
  lastPosition : ℚ
  totalWatched : ℚ
  intervals : List Interval
  timestamp : ℚ
  isCompleted : Bool
deriving DecidableEq

/-- Remote progress record (`IProgress` in `src/services/api.ts`).
Note that it carries no completion flag. -/
structure IProgress where
  userId : String
  videoId : String
  intervals : List Interval
  lastPosition : ℚ
  totalWatched : ℚ
  lastWatchedAt : ℚ
deriving DecidableEq

/-- In-memory state of `useVideoProgress`: the mutable refs plus the React
state cells the claims are about. -/
structure TrackerState where
  currentInterval : Option Interval
  lastUpdateTime : ℚ
  lastUIUpdateTime : ℚ
  isPlaying : Bool
  lastKnownPosition : ℚ
  intervals : List Interval
  totalWatched : ℚ
  wasFullyWatched : Bool
  skippedAhead : Bool
  isCompleted : Bool
  localProgress : ℚ
deriving DecidableEq

/-- Observable side effects of a handler call, in program order.
`saveLocal` is `localStorage.setItem` with the serialized record,
`remoteWrite` is the `updateProgress` POST, `emitProgress` the socket
emit, `logError` the `setError` in a catch branch. -/
inductive Action where
  | saveLocal (rec : LocalStorageProgress)
  | remoteWrite (interval : Interval) (lastPosition : ℚ)
  | emitProgress
  | logError
deriving DecidableEq

def PROGRESS_UPDATE_INTERVAL : ℚ := 5000

def UI_UPDATE_INTERVAL : ℚ := 1000

def MINIMUM_WATCH_TIME : ℚ := 1

def SKIP_THRESHOLD : ℚ := 10

/-- The literal `0.1` of the merge loop in `calculateProgress`. -/
def MERGE_TOLERANCE : ℚ := 1 / 10

/-- The literal `99.5` of the completion check in `calculateProgress`. -/
def COMPLETION_CUTOFF : ℚ := 995 / 10

/-- The filter of `calculateProgress` (`useVideoProgress.ts:64-71`):
drops intervals with `end <= start`, `start >= duration`, span below
`MINIMUM_WATCH_TIME`, or span above `duration`. -/
def intervalValid (duration : ℚ) (i : Interval) : Bool :=
  if i.«end» ≤ i.start then false
  else if i.start ≥ duration then false
  else if i.«end» - i.start < MINIMUM_WATCH_TIME then false
  else if i.«end» - i.start > duration then false
  else true

/-- The `clampedInterval` of the merge loop (`useVideoProgress.ts:79-82`). -/
def clampI (duration : ℚ) (i : Interval) : Interval :=
  { start := max 0 i.start, «end» := min duration i.«end» }

/-- One iteration of the merge loop (`useVideoProgress.ts:78-95`), with the
accumulator kept reversed so the running last interval is the head. -/
def mergeStep (duration : ℚ) (acc : List Interval) (interval : Interval) : List Interval :=
  let c := clampI duration interval
  match acc with
  | [] => [c]
  | last :: rest =>
    if c.start ≤ last.«end» + MERGE_TOLERANCE then
      { start := last.start, «end» := max last.«end» c.«end» } :: rest
    else
      c :: last :: rest

/-- `validIntervals.sort((a, b) => a.start - b.start)`: a stable sort by
`start`.  ECMAScript `Array.prototype.sort` is a stable sort, and a stable
sort by a given key is unique, so the stable `List.insertionSort` embeds it
faithfully. -/
def sortIntervals (l : List Interval) : List Interval :=
  l.insertionSort fun a b => a.start ≤ b.start

/-- The full filter–sort–merge pass of `calculateProgress`
(`useVideoProgress.ts:63-95`). -/
def mergedIntervals (duration : ℚ) (l : List Interval) : List Interval :=
  ((sortIntervals (l.filter (intervalValid duration))).foldl (mergeStep duration) []).reverse

/-- `mergedIntervals.reduce(...)` (`useVideoProgress.ts:98-99`). -/
def totalOf (merged : List Interval) : ℚ :=
  merged.foldl (fun total i => total + (i.«end» - i.start)) 0

/-- Total watched seconds computed by one pass, as stored into
`totalWatchedRef`. -/
def totalWatchedOf (duration : ℚ) (l : List Interval) : ℚ :=
  totalOf (mergedIntervals duration l)

/-- `Math.min((totalWatched / duration) * 100, 100)` (`useVideoProgress.ts:102`). -/
def percentageOf (duration total : ℚ) : ℚ :=
  min (total / duration * 100) 100

/-- The raw (pre-latch) percentage one pass computes from an interval list. -/
def rawPercentage (duration : ℚ) (l : List Interval) : ℚ :=
  percentageOf duration (totalWatchedOf duration l)

/-- `calculateProgress` (`useVideoProgress.ts:55-121`): returns the reported
percentage and the updated state (`totalWatchedRef`, possibly the
`wasFullyWatchedRef` latch and `isCompleted`).  The `skippedAhead` read is
the React state captured at entry. -/
def calculateProgress (duration : ℚ) (s : TrackerState) : ℚ × TrackerState :=
  if duration = 0 then (0, s)
  else if s.wasFullyWatched then (100, s)
  else
    let totalWatched := totalWatchedOf duration s.intervals
    let s1 := { s with totalWatched := totalWatched }
    let percentage := percentageOf duration totalWatched
    if COMPLETION_CUTOFF ≤ percentage ∧ s.skippedAhead = false then
      (100, { s1 with wasFullyWatched := true, isCompleted := true })
    else
      (percentage, s1)

/-- The record `saveToLocalStorage` serializes (`useVideoProgress.ts:124-134`):
built from the refs at the time of the call, with `Date.now()` passed in as
`now`. -/
def mkLocalRecord (s : TrackerState) (now : ℚ) : LocalStorageProgress :=
  { lastPosition := s.lastKnownPosition
    totalWatched := s.totalWatched
    intervals := s.intervals
    timestamp := now
    isCompleted := s.wasFullyWatched }

/-- `resetProgress` (`useVideoProgress.ts:137-151`): an early return when the
`wasFullyWatchedRef` latch is set, otherwise clears the accumulated state and
writes the cleared record to local storage. -/
def resetProgress (now : ℚ) (s : TrackerState) : TrackerState × List Action :=
  if s.wasFullyWatched then (s, [])
  else
    let s1 := { s with
      intervals := []
      currentInterval := none
      totalWatched := 0
      lastKnownPosition := 0
      localProgress := 0
      skippedAhead := false }
    (s1, [Action.saveLocal (mkLocalRecord s1 now)])

/-- Side effects of `saveProgress` (`useVideoProgress.ts:258-288`) in program
order.  The POST to the remote store (`updateProgress`) is initiated first and
awaited; only in its success continuation does `saveToLocalStorage` run,
followed by the socket emit.  On failure the catch branch logs an error and no
local write happens.  `remoteOk` abstracts whether the awaited POST succeeds;
the record written by the continuation is built from the refs as of this tick
(no interleaved mutation is modelled). -/
def saveProgressActs (remoteOk : Bool) (s : TrackerState) (currentTime now : ℚ) :
    List Action :=
  match s.currentInterval with
  | none => []
  | some ci =>
    Action.remoteWrite ci currentTime ::
      (if remoteOk then [Action.saveLocal (mkLocalRecord s now), Action.emitProgress]
       else [Action.logError])

/-- `handleTimeUpdate` (`useVideoProgress.ts:291-350`).  `t` is the reported
`currentTime`, `now` is `Date.now()` at this call.  Early return when not
playing or `!duration`; otherwise: extend (or open) the current interval to
`t`; on `|t - lastKnownPosition| > SKIP_THRESHOLD` push the (already
extended) interval, open a fresh one at `t` and set the skip flag; then the
UI cadence (recompute and display) and the persistence cadence (close the
current interval when it meets the minimum watch time, recompute, call
`saveProgress`); finally `lastKnownPosition := t`. -/
def handleTimeUpdate (duration t now : ℚ) (remoteOk : Bool) (s : TrackerState) :
    TrackerState × List Action :=
  if s.isPlaying = false ∨ duration = 0 then (s, [])
  else
    let timeSinceLastUpdate := now - s.lastUpdateTime
    let timeSinceLastUIUpdate := now - s.lastUIUpdateTime
    let ci : Interval :=
      match s.currentInterval with
      | some i => { i with «end» := t }
      | none => { start := t, «end» := t }
    let s1 := { s with currentInterval := some ci }
    let timeDiff := |t - s1.lastKnownPosition|
    let s2 :=
      if SKIP_THRESHOLD < timeDiff then
        { s1 with
          intervals := s1.intervals ++ [ci]
          currentInterval := some { start := t, «end» := t }
          skippedAhead := true }
      else s1
    let s3 :=
      if UI_UPDATE_INTERVAL ≤ timeSinceLastUIUpdate then
        let pr := calculateProgress duration s2
        { pr.2 with localProgress := pr.1, lastUIUpdateTime := now }
      else s2
    if PROGRESS_UPDATE_INTERVAL ≤ timeSinceLastUpdate then
      let s4 :=
        match s3.currentInterval with
        | some c =>
          if MINIMUM_WATCH_TIME ≤ c.«end» - c.start then
            { s3 with
              intervals := s3.intervals ++ [c]
              currentInterval := some { start := t, «end» := t } }
          else s3
        | none => s3
      let pr := calculateProgress duration s4
      let s5 := { pr.2 with localProgress := pr.1, lastUpdateTime := now }
      let s6 := { s5 with lastKnownPosition := t }
      (s6, saveProgressActs remoteOk s6 t now)
    else
      ({ s3 with lastKnownPosition := t }, [])

/-- The hook's state right after the refs and React state cells are
initialized (`useVideoProgress.ts:30-46`); both cadence clocks start at
`Date.now()`, passed in as `now`. -/
def initState (now : ℚ) : TrackerState :=
  { currentInterval := none
    lastUpdateTime := now
    lastUIUpdateTime := now
    isPlaying := false
    lastKnownPosition := 0
    intervals := []
    totalWatched := 0
    wasFullyWatched := false
    skippedAhead := false
    isCompleted := false
    localProgress := 0 }

/-- The cached-record phase of `loadProgress` (`useVideoProgress.ts:167-188`):
seed the refs from the parsed record; report 100 when its latch is set,
otherwise recompute (which can itself set the latch). -/
def seedFromLocal (duration : ℚ) (localData : Option LocalStorageProgress)
    (s : TrackerState) : TrackerState :=
  match localData with
  | none => s
  | some parsed =>
    let sa := { s with
      lastKnownPosition := parsed.lastPosition
      intervals := parsed.intervals
      wasFullyWatched := parsed.isCompleted
      isCompleted := parsed.isCompleted }
    if parsed.isCompleted then { sa with localProgress := 100 }
    else
      let pr := calculateProgress duration sa
      { pr.2 with localProgress := pr.1 }

/-- `loadProgress` (`useVideoProgress.ts:159-222`): seed from the cached
record when present; then, when the remote fetch succeeds, re-seed
`lastPosition` and `intervals` from the server record if there was no cached
record, or if the local latch is unset and the server record's
`lastWatchedAt` is strictly later than the cached `timestamp`.
`serverResult = none` models a failed fetch (including 404). -/
def loadProgress (duration : ℚ) (localData : Option LocalStorageProgress)
    (serverResult : Option IProgress) (s : TrackerState) : TrackerState :=
  let s1 := seedFromLocal duration localData s
  match serverResult with
  | none => s1
  | some serverData =>
    let useServer : Bool :=
      match localData with
      | none => true
      | some parsed =>
        !s1.wasFullyWatched && decide (parsed.timestamp < serverData.lastWatchedAt)
    if useServer then
      let sb := { s1 with
        lastKnownPosition := serverData.lastPosition
        intervals := serverData.intervals }
      let pr := calculateProgress duration sb
      { pr.2 with localProgress := pr.1 }
    else s1

def Action.isLocalSave : Action → Bool
  | .saveLocal _ => true
  | _ => false

def Action.isRemoteWrite : Action → Bool
  | .remoteWrite _ _ => true
  | _ => false

/-- The ordering C5 asserts for the action trace of a persistence tick: a
local cache write occurs and the first one precedes the first remote write
attempt. -/
def localSaveFirst (tr : List Action) : Prop :=
  tr.findIdx Action.isLocalSave < tr.findIdx Action.isRemoteWrite

/-- State for the counterexample to C1: playing at position 5 with open
interval `{0, 5}`, then a time update reports `t = 50` (a 45-second jump). -/
def c1state : TrackerState :=
  { initState 0 with
      isPlaying := true
      currentInterval := some ⟨0, 5⟩
      lastKnownPosition := 5 }

/-- Concrete state for the witness of C2: 0→99.6 of a 100-second video
watched continuously, no skip. -/
def c2state : TrackerState :=
  { initState 0 with intervals := [⟨0, 996/10⟩] }

/-- State for the counterexample to C5: playing, open interval `{0, 30}`,
persistence cadence due (`now - lastUpdateTime = 6000 ≥ 5000`), UI cadence
not due. -/
def c5state : TrackerState :=
  { initState 0 with
      isPlaying := true
      currentInterval := some ⟨0, 30⟩
      lastKnownPosition := 30
      lastUIUpdateTime := 6000 }

/-- Condition under which the seeding recomputation at load time sets the
completion latch: nonzero duration and seeded intervals already at the
completion cutoff (the skip flag is still false at load time). -/
def seedSetsLatch (duration : ℚ) (l : List Interval) : Prop :=
  duration ≠ 0 ∧ COMPLETION_CUTOFF ≤ rawPercentage duration l

/-- Record used in the counterexample to C4: a cached record whose own latch
is unset but whose intervals cover 99.6% of the 100-second video. -/
def c4cached : LocalStorageProgress :=
  { lastPosition := 996/10, totalWatched := 996/10, intervals := [⟨0, 996/10⟩],
    timestamp := 0, isCompleted := false }

/-- Records for the witness of C4: the cached record's latch is set while the
remote record has a strictly later `lastWatchedAt`; the cached record wins. -/
def w4loc : LocalStorageProgress :=
  { lastPosition := 42, totalWatched := 70, intervals := [⟨0, 70⟩],
    timestamp := 100, isCompleted := true }

def w4srv : IProgress :=
  { userId := "u1", videoId := "v1", intervals := [], lastPosition := 0,
    totalWatched := 0, lastWatchedAt := 5000 }

/-- The merge-loop step on an already clamped interval (`mergeStep` is this
composed with `clampI`). -/
def mergeAux (acc : List Interval) (c : Interval) : List Interval :=
  match acc with
  | [] => [c]
  | last :: rest =>
    if c.start ≤ last.«end» + MERGE_TOLERANCE then
      { start := last.start, «end» := max last.«end» c.«end» } :: rest
    else c :: last :: rest

/-- Recursive formulation of the merge loop, used for the proofs. -/
def mergeList : List Interval → List Interval
  | [] => []
  | [a] => [a]
  | a :: b :: t =>
    if b.start ≤ a.«end» + MERGE_TOLERANCE then
      mergeList ({ start := a.start, «end» := max a.«end» b.«end» } :: t)
    else a :: mergeList (b :: t)
termination_by l => l.length

instance : IsTotal Interval (fun a b => a.start ≤ b.start) :=
  ⟨fun a b => le_total a.start b.start⟩

instance : IsTrans Interval (fun a b => a.start ≤ b.start) :=
  ⟨fun _ _ _ hab hbc => le_trans hab hbc⟩

/-- Fold of `max` over interval ends, seeded with `e`. -/
def endsMax (e : ℚ) (l : List Interval) : ℚ :=
  l.foldl (fun m x => max m x.«end») e

instance : RightCommutative (fun (m : ℚ) (x : Interval) => max m x.«end») :=
  ⟨fun m a b => by rw [max_assoc, max_assoc, max_comm a.«end» b.«end»]⟩

/-- Spec scenario: `{0,30}` and `{30.05,60}` merge into `{0,60}` under the
0.1 tolerance. -/
theorem scenario_merge_within_tolerance :
    mergedIntervals 100 [⟨0, 30⟩, ⟨3005/100, 60⟩] = [⟨0, 60⟩] := by
  norm_num [mergedIntervals, sortIntervals, mergeStep, clampI, intervalValid,
    MINIMUM_WATCH_TIME, MERGE_TOLERANCE, List.insertionSort, List.orderedInsert]

/-- Spec scenario: `{0,30}` and `{32,60}` stay separate. -/
theorem scenario_merge_separate :
    mergedIntervals 100 [⟨0, 30⟩, ⟨32, 60⟩] = [⟨0, 30⟩, ⟨32, 60⟩] := by
  norm_num [mergedIntervals, sortIntervals, mergeStep, clampI, intervalValid,
    MINIMUM_WATCH_TIME, MERGE_TOLERANCE, List.insertionSort, List.orderedInsert]

/-- Spec scenario: separate intervals sum to 30 + 28 = 58 watched seconds. -/
theorem scenario_totalWatched :
    totalWatchedOf 100 [⟨0, 30⟩, ⟨32, 60⟩] = 58 := by
  norm_num [totalWatchedOf, totalOf, mergedIntervals, sortIntervals, mergeStep, clampI,
    intervalValid, MINIMUM_WATCH_TIME, MERGE_TOLERANCE, List.insertionSort, List.orderedInsert]

/-- Fields of the tracker state that `calculateProgress` never touches. -/
theorem calculateProgress_preserves (duration : ℚ) (s : TrackerState) :
    (calculateProgress duration s).2.intervals = s.intervals ∧
    (calculateProgress duration s).2.currentInterval = s.currentInterval ∧
    (calculateProgress duration s).2.skippedAhead = s.skippedAhead ∧
    (calculateProgress duration s).2.lastKnownPosition = s.lastKnownPosition ∧
    (calculateProgress duration s).2.isPlaying = s.isPlaying ∧
    (calculateProgress duration s).2.lastUpdateTime = s.lastUpdateTime ∧
    (calculateProgress duration s).2.lastUIUpdateTime = s.lastUIUpdateTime ∧
    (calculateProgress duration s).2.localProgress = s.localProgress := by
  unfold calculateProgress
  by_cases h1 : duration = 0 <;> by_cases h2 : s.wasFullyWatched <;> simp [h1, h2] <;> split <;> simp

theorem calc_intervals (duration : ℚ) (s : TrackerState) :
    (calculateProgress duration s).2.intervals = s.intervals :=
  (calculateProgress_preserves duration s).1

theorem calc_currentInterval (duration : ℚ) (s : TrackerState) :
    (calculateProgress duration s).2.currentInterval = s.currentInterval :=
  (calculateProgress_preserves duration s).2.1

theorem calc_skippedAhead (duration : ℚ) (s : TrackerState) :
    (calculateProgress duration s).2.skippedAhead = s.skippedAhead :=
  (calculateProgress_preserves duration s).2.2.1

theorem calc_lastKnownPosition (duration : ℚ) (s : TrackerState) :
    (calculateProgress duration s).2.lastKnownPosition = s.lastKnownPosition :=
  (calculateProgress_preserves duration s).2.2.2.1

/-- C3: the completion latch is one-way: once `wasFullyWatchedRef` is set,
`calculateProgress` short-circuits to 100 for every interval list (the empty
one included, gaps or not), returning the state untouched — no recomputation
from intervals happens. -/
theorem claim3_latch_forces_100 (duration : ℚ) (s : TrackerState)
    (hd : duration ≠ 0) (hl : s.wasFullyWatched = true) :
    calculateProgress duration s = (100, s) := by
  simp [calculateProgress, hd, hl]

/-- Witness for C3 at a concrete completed state with empty intervals. -/
theorem claim3_witness :
    calculateProgress 100 { initState 0 with wasFullyWatched := true } =
      (100, { initState 0 with wasFullyWatched := true }) :=
  claim3_latch_forces_100 100 { initState 0 with wasFullyWatched := true } (by norm_num) rfl

/-- C2: with positive duration and the latch not yet set, a computed
percentage of at least the 99.5 cutoff sets the latch and reports 100 when
no skip is flagged; with the skip flag set, the latch stays unset and the
raw capped percentage is reported instead. -/
theorem claim2_completion_threshold (duration : ℚ) (s : TrackerState)
    (hd : 0 < duration) (hnl : s.wasFullyWatched = false)
    (hp : COMPLETION_CUTOFF ≤ rawPercentage duration s.intervals) :
    (s.skippedAhead = false →
      calculateProgress duration s =
        (100, { s with totalWatched := totalWatchedOf duration s.intervals,
                       wasFullyWatched := true, isCompleted := true })) ∧
    (s.skippedAhead = true →
      calculateProgress duration s =
        (rawPercentage duration s.intervals,
         { s with totalWatched := totalWatchedOf duration s.intervals })) := by
  have hd0 : duration ≠ 0 := hd.ne'
  rw [rawPercentage] at hp
  constructor <;> intro hskip <;>
    simp [calculateProgress, hd0, hnl, hskip, hp, rawPercentage]

/-- Witness for C2: the 99.6% state crosses the cutoff, the latch sets and
100 is reported. -/
theorem claim2_witness :
    calculateProgress 100 c2state =
      (100,
        { c2state with
            totalWatched := totalWatchedOf 100 c2state.intervals
            wasFullyWatched := true
            isCompleted := true }) :=
  (claim2_completion_threshold 100 c2state (by norm_num) rfl
    (by norm_num [rawPercentage, percentageOf, totalWatchedOf, totalOf, mergedIntervals,
      sortIntervals, mergeStep, clampI, intervalValid, c2state, initState,
      MINIMUM_WATCH_TIME, MERGE_TOLERANCE, COMPLETION_CUTOFF,
      List.insertionSort, List.orderedInsert])).1 rfl

/-- C6: `resetProgress` is a silent no-op when the completion latch is set —
the state, skip flag, open interval, intervals and cache are all untouched —
and otherwise clears every piece of accumulated state back to the empty
record and persists that empty record to the local cache. -/
theorem claim6_reset (now : ℚ) (s : TrackerState) :
    (s.wasFullyWatched = true → resetProgress now s = (s, [])) ∧
    (s.wasFullyWatched = false →
      resetProgress now s =
        ({ s with intervals := [], currentInterval := none, totalWatched := 0,
                  lastKnownPosition := 0, localProgress := 0, skippedAhead := false },
         [Action.saveLocal
            { lastPosition := 0, totalWatched := 0, intervals := [],
              timestamp := now, isCompleted := false }])) := by
  constructor <;> intro h <;> simp [resetProgress, mkLocalRecord, h]

/-- Witness for C6: a completed state is left alone with no cache write; a
fresh state is cleared and the empty record written. -/
theorem claim6_witness :
    resetProgress 7 { initState 0 with wasFullyWatched := true, intervals := [⟨0, 30⟩] } =
      ({ initState 0 with wasFullyWatched := true, intervals := [⟨0, 30⟩] }, []) ∧
    resetProgress 7 (initState 0) =
      (initState 0,
       [Action.saveLocal
          { lastPosition := 0, totalWatched := 0, intervals := [],
            timestamp := 7, isCompleted := false }]) :=
  ⟨(claim6_reset 7 _).1 rfl, (claim6_reset 7 (initState 0)).2 rfl⟩

/-- C10: `handleTimeUpdate` while not playing, or with a zero/undefined
duration, is a pure no-op: the returned state is the input state (open
interval, intervals, position, flags, latch, reported progress and both
cadence clocks included) and no local or remote write is initiated. -/
theorem claim10_frame (duration t now : ℚ) (remoteOk : Bool) (s : TrackerState)
    (h : s.isPlaying = false ∨ duration = 0) :
    handleTimeUpdate duration t now remoteOk s = (s, []) := by
  unfold handleTimeUpdate
  rw [if_pos h]

/-- Witness for C10 at the initial (paused) state. -/
theorem claim10_witness :
    handleTimeUpdate 100 5 3000 true (initState 0) = (initState 0, []) :=
  claim10_frame 100 5 3000 true (initState 0) (Or.inl rfl)

/-- Counterexample to C1 as stated: on a skip the code first extends the open
interval's end to the new position `t` and only then closes it, so the closed
interval is `{0, 50}`, not the pre-jump open interval `{0, 5}` the claim's
"closes the current open interval, and only in the non-skip case extends to
t" would give. -/
theorem claim1_counterexample :
    (handleTimeUpdate 100 50 0 true c1state).1.intervals = [⟨0, 50⟩] ∧
    (handleTimeUpdate 100 50 0 true c1state).1.intervals ≠ c1state.intervals ++ [⟨0, 5⟩] := by
  have habs : |(50:ℚ) - 5| = 45 := by rw [abs_of_nonneg] <;> norm_num
  norm_num [handleTimeUpdate, c1state, initState, habs, SKIP_THRESHOLD,
    UI_UPDATE_INTERVAL, PROGRESS_UPDATE_INTERVAL, MINIMUM_WATCH_TIME]

/-- C1 (amended): on every `handleTimeUpdate(t)` while playing with a nonzero
duration and an open interval, the open interval's end is first extended to
`t` in every case; when `|t - lastKnownPosition|` exceeds the 10-second skip
threshold the tracker then closes that extended interval (its end already
`t`), opens a fresh open interval `{t, t}` and sets the skip flag; in the
non-skip case (when no persistence tick also fires) the extended interval
simply stays open; `lastKnownPosition` is updated to `t` on every call. -/
theorem claim1_amended (duration t now : ℚ) (remoteOk : Bool) (s : TrackerState)
    (ci : Interval) (hp : s.isPlaying = true) (hd : duration ≠ 0)
    (hci : s.currentInterval = some ci) :
    (handleTimeUpdate duration t now remoteOk s).1.lastKnownPosition = t ∧
    (SKIP_THRESHOLD < |t - s.lastKnownPosition| →
      (handleTimeUpdate duration t now remoteOk s).1.intervals
          = s.intervals ++ [{ start := ci.start, «end» := t }] ∧
      (handleTimeUpdate duration t now remoteOk s).1.currentInterval
          = some { start := t, «end» := t } ∧
      (handleTimeUpdate duration t now remoteOk s).1.skippedAhead = true) ∧
    (¬ SKIP_THRESHOLD < |t - s.lastKnownPosition| →
      now - s.lastUpdateTime < PROGRESS_UPDATE_INTERVAL →
      (handleTimeUpdate duration t now remoteOk s).1.currentInterval
          = some { start := ci.start, «end» := t } ∧
      (handleTimeUpdate duration t now remoteOk s).1.intervals = s.intervals ∧
      (handleTimeUpdate duration t now remoteOk s).1.skippedAhead = s.skippedAhead) := by
  have hne : ¬ (s.isPlaying = false ∨ duration = 0) := by simp [hp, hd]
  have hmin0 : ¬ MINIMUM_WATCH_TIME ≤ (0:ℚ) := by norm_num [MINIMUM_WATCH_TIME]
  unfold handleTimeUpdate
  rw [if_neg hne, hci]
  refine ⟨?_, fun hskip => ?_, fun hnskip hlt => ?_⟩
  · by_cases hskip : SKIP_THRESHOLD < |t - s.lastKnownPosition| <;>
      by_cases hui : UI_UPDATE_INTERVAL ≤ now - s.lastUIUpdateTime <;>
      by_cases hper : PROGRESS_UPDATE_INTERVAL ≤ now - s.lastUpdateTime <;>
      simp [hskip, hui, hper, hmin0, calc_lastKnownPosition, calc_currentInterval]
  · by_cases hui : UI_UPDATE_INTERVAL ≤ now - s.lastUIUpdateTime <;>
      by_cases hper : PROGRESS_UPDATE_INTERVAL ≤ now - s.lastUpdateTime <;>
      simp [hskip, hui, hper, hmin0, calc_intervals, calc_currentInterval, calc_skippedAhead]
  · have hper : ¬ PROGRESS_UPDATE_INTERVAL ≤ now - s.lastUpdateTime := not_le.mpr hlt
    by_cases hui : UI_UPDATE_INTERVAL ≤ now - s.lastUIUpdateTime <;>
      simp [hnskip, hui, hper, calc_intervals, calc_currentInterval, calc_skippedAhead]

/-- Witness for C1 (amended), exercised at the skip input of the
counterexample. -/
theorem claim1_witness :
    (handleTimeUpdate 100 50 0 true c1state).1.lastKnownPosition = 50 ∧
    (handleTimeUpdate 100 50 0 true c1state).1.intervals = c1state.intervals ++ [⟨0, 50⟩] ∧
    (handleTimeUpdate 100 50 0 true c1state).1.currentInterval = some ⟨50, 50⟩ ∧
    (handleTimeUpdate 100 50 0 true c1state).1.skippedAhead = true := by
  have h := claim1_amended 100 50 0 true c1state ⟨0, 5⟩ rfl (by norm_num) rfl
  have hskip : SKIP_THRESHOLD < |(50:ℚ) - c1state.lastKnownPosition| := by
    have habs : |(50:ℚ) - 5| = 45 := by rw [abs_of_nonneg] <;> norm_num
    simp only [c1state, initState]
    rw [habs]
    norm_num [SKIP_THRESHOLD]
  exact ⟨h.1, (h.2.1 hskip).1, (h.2.1 hskip).2.1, (h.2.1 hskip).2.2⟩

/-- Counterexample to C5 as stated: at a persistence tick the trace starts
with the remote write; the local cache write happens only afterwards, inside
the remote write's success continuation, and does not happen at all when the
remote write fails. -/
theorem claim5_counterexample :
    (handleTimeUpdate 100 30 6000 true c5state).2 =
      [Action.remoteWrite ⟨30, 30⟩ 30,
       Action.saveLocal
         { lastPosition := 30, totalWatched := 30, intervals := [⟨0, 30⟩],
           timestamp := 6000, isCompleted := false },
       Action.emitProgress] ∧
    ¬ localSaveFirst (handleTimeUpdate 100 30 6000 true c5state).2 ∧
    (handleTimeUpdate 100 30 6000 false c5state).2.filter Action.isLocalSave = [] := by
  have h1 : (handleTimeUpdate 100 30 6000 true c5state).2 =
      [Action.remoteWrite ⟨30, 30⟩ 30,
       Action.saveLocal
         { lastPosition := 30, totalWatched := 30, intervals := [⟨0, 30⟩],
           timestamp := 6000, isCompleted := false },
       Action.emitProgress] := by
    norm_num [handleTimeUpdate, c5state, initState, saveProgressActs, mkLocalRecord,
      calculateProgress, percentageOf, totalWatchedOf, totalOf, mergedIntervals,
      sortIntervals, mergeStep, clampI, intervalValid, List.insertionSort,
      List.orderedInsert, SKIP_THRESHOLD, UI_UPDATE_INTERVAL, PROGRESS_UPDATE_INTERVAL,
      MINIMUM_WATCH_TIME, MERGE_TOLERANCE, COMPLETION_CUTOFF]
  have h2 : (handleTimeUpdate 100 30 6000 false c5state).2 =
      [Action.remoteWrite ⟨30, 30⟩ 30, Action.logError] := by
    norm_num [handleTimeUpdate, c5state, initState, saveProgressActs, mkLocalRecord,
      calculateProgress, percentageOf, totalWatchedOf, totalOf, mergedIntervals,
      sortIntervals, mergeStep, clampI, intervalValid, List.insertionSort,
      List.orderedInsert, SKIP_THRESHOLD, UI_UPDATE_INTERVAL, PROGRESS_UPDATE_INTERVAL,
      MINIMUM_WATCH_TIME, MERGE_TOLERANCE, COMPLETION_CUTOFF]
  refine ⟨h1, ?_, ?_⟩
  · rw [h1]
    simp [localSaveFirst, List.findIdx, List.findIdx.go, Action.isLocalSave,
      Action.isRemoteWrite]
  · rw [h2]
    simp [Action.isLocalSave]

/-- C5 (amended): at every persistence-cadence tick the remote write is
attempted first (the trace of the tick starts with it); the synchronous
local-cache write runs only in the remote write's success continuation,
after it resolves, followed by the socket emit; when the remote write fails
only an error is logged and no cache write happens at the tick. -/
theorem claim5_amended (duration t now : ℚ) (remoteOk : Bool) (s : TrackerState)
    (hp : s.isPlaying = true) (hd : duration ≠ 0)
    (htick : PROGRESS_UPDATE_INTERVAL ≤ now - s.lastUpdateTime) :
    ∃ i rest,
      (handleTimeUpdate duration t now remoteOk s).2 = Action.remoteWrite i t :: rest ∧
      (remoteOk = true → ∃ r, rest = [Action.saveLocal r, Action.emitProgress]) ∧
      (remoteOk = false → rest = [Action.logError]) := by
  have hne : ¬ (s.isPlaying = false ∨ duration = 0) := by simp [hp, hd]
  have hmin0 : ¬ MINIMUM_WATCH_TIME ≤ (0:ℚ) := by norm_num [MINIMUM_WATCH_TIME]
  have key : ∃ s6 : TrackerState, (∃ c, s6.currentInterval = some c) ∧
      (handleTimeUpdate duration t now remoteOk s).2 = saveProgressActs remoteOk s6 t now := by
    unfold handleTimeUpdate
    rw [if_neg hne]
    rcases hci : s.currentInterval with _ | ci <;>
      by_cases hskip : SKIP_THRESHOLD < |t - s.lastKnownPosition| <;>
      by_cases hui : UI_UPDATE_INTERVAL ≤ now - s.lastUIUpdateTime <;>
      simp [hci, hskip, hui, htick, hmin0] <;>
      refine ⟨_, ?_, rfl⟩ <;> (try split) <;> simp [calc_currentInterval, hmin0] <;>
      (try split) <;> simp
  obtain ⟨s6, ⟨c, hc⟩, htr⟩ := key
  rw [htr]
  rcases remoteOk
  · simp only [saveProgressActs, hc, Bool.false_eq_true, if_false]
    exact ⟨c, _, rfl, by simp, fun _ => rfl⟩
  · simp only [saveProgressActs, hc, if_true]
    exact ⟨c, _, rfl, fun _ => ⟨_, rfl⟩, by simp⟩

/-- Witness for C5 (amended) at the counterexample's tick input. -/
theorem claim5_witness :
    ∃ i rest,
      (handleTimeUpdate 100 30 6000 true c5state).2 = Action.remoteWrite i 30 :: rest ∧
      (true = true → ∃ r, rest = [Action.saveLocal r, Action.emitProgress]) ∧
      (true = false → rest = [Action.logError]) :=
  claim5_amended 100 30 6000 true c5state rfl (by norm_num)
    (by norm_num [PROGRESS_UPDATE_INTERVAL, c5state, initState])

/-- When the latch and skip flag are clear, one `calculateProgress` pass sets
the latch exactly when the duration is nonzero and the capped percentage
reaches the cutoff. -/
theorem calc_latch_iff (duration : ℚ) (s : TrackerState)
    (h1 : s.wasFullyWatched = false) (h2 : s.skippedAhead = false) :
    ((calculateProgress duration s).2.wasFullyWatched = true) ↔
      seedSetsLatch duration s.intervals := by
  unfold calculateProgress seedSetsLatch rawPercentage
  by_cases hd : duration = 0
  · simp [hd, h1]
  · simp only [hd, if_false, h1, Bool.false_eq_true, h2]
    split
    · rename_i h
      simp [hd, h.1]
    · rename_i h
      rw [not_and_or] at h
      rcases h with h | h
      · simp [h1, hd, fun hc => h hc]
      · simp at h

/-- Counterexample to C4 as stated: with only the cached record present that
record is chosen, yet the tracker's latch ends up `true` while the chosen
record's latch field is `false` — the seeding recomputation derives the
latch from the seeded intervals rather than seeding it from the record (and
a remote `IProgress` record carries no completion flag at all to seed). -/
theorem claim4_counterexample :
    c4cached.isCompleted = false ∧
    (loadProgress 100 (some c4cached) none (initState 5)).wasFullyWatched = true := by
  constructor
  · rfl
  · norm_num [loadProgress, seedFromLocal, c4cached, initState, calculateProgress,
      percentageOf, totalWatchedOf, totalOf, mergedIntervals, sortIntervals, mergeStep,
      clampI, intervalValid, List.insertionSort, List.orderedInsert, MINIMUM_WATCH_TIME,
      MERGE_TOLERANCE, COMPLETION_CUTOFF]

theorem seedFromLocal_completed (duration now : ℚ) (loc : LocalStorageProgress)
    (h : loc.isCompleted = true) :
    seedFromLocal duration (some loc) (initState now) =
      { initState now with
          lastKnownPosition := loc.lastPosition
          intervals := loc.intervals
          wasFullyWatched := true
          isCompleted := true
          localProgress := 100 } := by
  simp [seedFromLocal, h]

theorem seedFromLocal_fields (duration now : ℚ) (loc : LocalStorageProgress)
    (h : loc.isCompleted = false) :
    (seedFromLocal duration (some loc) (initState now)).intervals = loc.intervals ∧
    (seedFromLocal duration (some loc) (initState now)).lastKnownPosition = loc.lastPosition ∧
    (seedFromLocal duration (some loc) (initState now)).skippedAhead = false ∧
    ((seedFromLocal duration (some loc) (initState now)).wasFullyWatched = true ↔
      seedSetsLatch duration loc.intervals) := by
  unfold seedFromLocal
  simp only [h, Bool.false_eq_true, if_false]
  refine ⟨?_, ?_, ?_, ?_⟩
  · simp [calc_intervals]
  · simp [calc_lastKnownPosition]
  · simp [calc_skippedAhead, initState]
  · have hiff := calc_latch_iff duration
      { initState now with
          lastKnownPosition := loc.lastPosition
          intervals := loc.intervals
          wasFullyWatched := loc.isCompleted
          isCompleted := loc.isCompleted }
      (by simp [initState, h]) (by simp [initState])
    simp only [h] at hiff
    simpa using hiff

/-- C4 (amended): at session start the cached record is kept unconditionally
when its latch is set; otherwise the remote record is chosen only when its
`lastWatchedAt` is strictly later than the cached `timestamp` and the cached
seeding recomputation did not itself set the latch; a sole record is used as
is.  The chosen record seeds `intervals` and `lastPosition`; the latch is
seeded from the cached record's `isCompleted` flag when set, and otherwise —
remote records carry no completion flag — it ends up set exactly when the
seeded intervals already reach the completion cutoff. -/
theorem claim4_amended (duration now : ℚ) (loc : LocalStorageProgress) (srv : IProgress)
    (srvOpt : Option IProgress) :
    (loc.isCompleted = true →
      loadProgress duration (some loc) srvOpt (initState now) =
        { initState now with
            lastKnownPosition := loc.lastPosition
            intervals := loc.intervals
            wasFullyWatched := true
            isCompleted := true
            localProgress := 100 }) ∧
    (loc.isCompleted = false → ¬ seedSetsLatch duration loc.intervals →
      loc.timestamp < srv.lastWatchedAt →
      (loadProgress duration (some loc) (some srv) (initState now)).intervals
          = srv.intervals ∧
      (loadProgress duration (some loc) (some srv) (initState now)).lastKnownPosition
          = srv.lastPosition ∧
      ((loadProgress duration (some loc) (some srv) (initState now)).wasFullyWatched = true ↔
        seedSetsLatch duration srv.intervals)) ∧
    (loc.isCompleted = false → srv.lastWatchedAt ≤ loc.timestamp →
      (loadProgress duration (some loc) (some srv) (initState now)).intervals
          = loc.intervals ∧
      (loadProgress duration (some loc) (some srv) (initState now)).lastKnownPosition
          = loc.lastPosition ∧
      ((loadProgress duration (some loc) (some srv) (initState now)).wasFullyWatched = true ↔
        seedSetsLatch duration loc.intervals)) ∧
    (loc.isCompleted = false → seedSetsLatch duration loc.intervals →
      (loadProgress duration (some loc) (some srv) (initState now)).intervals
          = loc.intervals ∧
      (loadProgress duration (some loc) (some srv) (initState now)).lastKnownPosition
          = loc.lastPosition ∧
      (loadProgress duration (some loc) (some srv) (initState now)).wasFullyWatched = true) ∧
    (loc.isCompleted = false →
      (loadProgress duration (some loc) none (initState now)).intervals = loc.intervals ∧
      (loadProgress duration (some loc) none (initState now)).lastKnownPosition
          = loc.lastPosition ∧
      ((loadProgress duration (some loc) none (initState now)).wasFullyWatched = true ↔
        seedSetsLatch duration loc.intervals)) ∧
    ((loadProgress duration none (some srv) (initState now)).intervals = srv.intervals ∧
      (loadProgress duration none (some srv) (initState now)).lastKnownPosition
          = srv.lastPosition ∧
      ((loadProgress duration none (some srv) (initState now)).wasFullyWatched = true ↔
        seedSetsLatch duration srv.intervals)) ∧
    loadProgress duration none none (initState now) = initState now := by
  refine ⟨?_, ?_, ?_, ?_, ?_, ?_, ?_⟩
  · intro h
    cases srvOpt <;>
      simp [loadProgress, seedFromLocal_completed duration now loc h]
  · intro h0 hnl hlt
    obtain ⟨f1, f2, f3, f4⟩ := seedFromLocal_fields duration now loc h0
    have hlf : (seedFromLocal duration (some loc) (initState now)).wasFullyWatched = false := by
      cases hb : (seedFromLocal duration (some loc) (initState now)).wasFullyWatched
      · rfl
      · exact absurd (f4.mp hb) hnl
    have hiff := calc_latch_iff duration
      { seedFromLocal duration (some loc) (initState now) with
          lastKnownPosition := srv.lastPosition
          intervals := srv.intervals }
      (by simpa using hlf) (by simpa using f3)
    have hdec : decide (loc.timestamp < srv.lastWatchedAt) = true := decide_eq_true hlt
    simp only [hlf] at hiff
    simp only [loadProgress, hlf, hdec, Bool.not_false, Bool.true_and,
      eq_self_iff_true, if_true]
    exact ⟨by simp [calc_intervals], by simp [calc_lastKnownPosition], by simpa using hiff⟩
  · intro h0 hle
    obtain ⟨f1, f2, f3, f4⟩ := seedFromLocal_fields duration now loc h0
    have hnlt : ¬ loc.timestamp < srv.lastWatchedAt := not_lt.mpr hle
    simp only [loadProgress, decide_eq_false hnlt, Bool.and_false, Bool.false_eq_true,
      if_false]
    exact ⟨f1, f2, f4⟩
  · intro h0 hsl
    obtain ⟨f1, f2, f3, f4⟩ := seedFromLocal_fields duration now loc h0
    have hlf : (seedFromLocal duration (some loc) (initState now)).wasFullyWatched = true :=
      f4.mpr hsl
    simp only [loadProgress, hlf, Bool.not_true, Bool.false_and, Bool.false_eq_true, if_false]
    exact ⟨f1, f2, trivial⟩
  · intro h0
    obtain ⟨f1, f2, f3, f4⟩ := seedFromLocal_fields duration now loc h0
    exact ⟨f1, f2, f4⟩
  · have hiff := calc_latch_iff duration
      { initState now with
          lastKnownPosition := srv.lastPosition
          intervals := srv.intervals }
      (by simp [initState]) (by simp [initState])
    refine ⟨by simp [loadProgress, seedFromLocal, calc_intervals],
      by simp [loadProgress, seedFromLocal, calc_lastKnownPosition], ?_⟩
    simp only [loadProgress, seedFromLocal, if_true]
    simpa using hiff
  · rfl

/-- Witness for C4 (amended): the completed cached record is kept over the
later remote record. -/
theorem claim4_witness :
    loadProgress 60 (some w4loc) (some w4srv) (initState 9) =
      { initState 9 with
          lastKnownPosition := w4loc.lastPosition
          intervals := w4loc.intervals
          wasFullyWatched := true
          isCompleted := true
          localProgress := 100 } :=
  (claim4_amended 60 9 w4loc w4srv (some w4srv)).1 rfl

theorem mergeStep_eq_mergeAux (duration : ℚ) (acc : List Interval) (i : Interval) :
    mergeStep duration acc i = mergeAux acc (clampI duration i) := rfl

theorem mergeList_nil : mergeList [] = [] := by
  simp [mergeList]

theorem mergeList_single (a : Interval) : mergeList [a] = [a] := by
  simp [mergeList]

theorem mergeList_cons2 (a b : Interval) (t : List Interval) :
    mergeList (a :: b :: t) =
      if b.start ≤ a.«end» + MERGE_TOLERANCE then
        mergeList ({ start := a.start, «end» := max a.«end» b.«end» } :: t)
      else a :: mergeList (b :: t) := by
  rw [mergeList]

theorem foldl_mergeAux (l : List Interval) :
    ∀ (last : Interval) (rest : List Interval),
      (List.foldl mergeAux (last :: rest) l).reverse = rest.reverse ++ mergeList (last :: l) := by
  induction l with
  | nil => intro last rest; simp [mergeList_single]
  | cons i l ih =>
    intro last rest
    by_cases h : i.start ≤ last.«end» + MERGE_TOLERANCE
    · rw [List.foldl_cons, show mergeAux (last :: rest) i =
        { start := last.start, «end» := max last.«end» i.«end» } :: rest from by
          simp [mergeAux, h],
        ih, mergeList_cons2, if_pos h]
    · rw [List.foldl_cons, show mergeAux (last :: rest) i = i :: last :: rest from by
          simp [mergeAux, h],
        ih, mergeList_cons2, if_neg h]
      simp

/-- The imperative filter–sort–merge pass equals the recursive merge of the
clamped, sorted, filtered list. -/
theorem mergedIntervals_eq (duration : ℚ) (l : List Interval) :
    mergedIntervals duration l =
      mergeList ((sortIntervals (l.filter (intervalValid duration))).map (clampI duration)) := by
  unfold mergedIntervals
  rw [show List.foldl (mergeStep duration) []
        (sortIntervals (l.filter (intervalValid duration)))
      = List.foldl mergeAux []
          ((sortIntervals (l.filter (intervalValid duration))).map (clampI duration)) from by
    rw [List.foldl_map]
    rfl]
  cases hL : (sortIntervals (l.filter (intervalValid duration))).map (clampI duration) with
  | nil => simp [mergeList_nil]
  | cons c cs =>
    rw [List.foldl_cons, show mergeAux [] c = [c] from rfl, foldl_mergeAux]
    simp

/-- Every start in the merge output is the start of some input interval. -/
theorem mergeList_start_mem :
    ∀ l : List Interval, ∀ y ∈ mergeList l, ∃ x ∈ l, y.start = x.start := by
  intro l
  induction l using mergeList.induct with
  | case1 => simp [mergeList_nil]
  | case2 a => simp [mergeList_single]
  | case3 a b t h ih =>
    rw [mergeList_cons2, if_pos h]
    intro y hy
    obtain ⟨x, hx, hyx⟩ := ih y hy
    rcases List.mem_cons.mp hx with hx | hx
    · exact ⟨a, List.mem_cons_self _ _, by rw [hyx, hx]⟩
    · exact ⟨x, by simp [hx], hyx⟩
  | case4 a b t h ih =>
    rw [mergeList_cons2, if_neg h]
    intro y hy
    rcases List.mem_cons.mp hy with hy | hy
    · exact ⟨a, List.mem_cons_self _ _, by rw [hy]⟩
    · obtain ⟨x, hx, hyx⟩ := ih y hy
      exact ⟨x, by simp [List.mem_cons.mp hx], hyx⟩

/-- Merging a start-sorted list yields a start-sorted list whose consecutive
intervals are separated by more than the merge tolerance. -/
theorem mergeList_pairwise :
    ∀ l : List Interval, List.Pairwise (fun a b => a.start ≤ b.start) l →
      List.Pairwise (fun a b =>
        a.start ≤ b.start ∧ a.«end» + MERGE_TOLERANCE < b.start) (mergeList l) := by
  intro l
  induction l using mergeList.induct with
  | case1 => intro _; simp [mergeList_nil]
  | case2 a => intro _; simp [mergeList_single]
  | case3 a b t h ih =>
    intro hp
    rw [mergeList_cons2, if_pos h]
    rcases List.pairwise_cons.mp hp with ⟨ha, hp'⟩
    rcases List.pairwise_cons.mp hp' with ⟨hb, hpt⟩
    exact ih (List.pairwise_cons.mpr
      ⟨fun x hx => le_trans (ha b (List.mem_cons_self _ _)) (hb x hx), hpt⟩)
  | case4 a b t h ih =>
    intro hp
    rw [mergeList_cons2, if_neg h]
    rcases List.pairwise_cons.mp hp with ⟨ha, hp'⟩
    have hgap : a.«end» + MERGE_TOLERANCE < b.start := not_le.mp h
    refine List.pairwise_cons.mpr ⟨?_, ih hp'⟩
    intro y hy
    obtain ⟨x, hx, hyx⟩ := mergeList_start_mem (b :: t) y hy
    have hbx : b.start ≤ x.start := by
      rcases List.mem_cons.mp hx with hx | hx
      · rw [hx]
      · exact (List.pairwise_cons.mp hp').1 x hx
    rw [hyx]
    exact ⟨le_trans (ha b (List.mem_cons_self _ _)) hbx, lt_of_lt_of_le hgap hbx⟩

theorem sortIntervals_sorted (l : List Interval) :
    List.Pairwise (fun a b => a.start ≤ b.start) (sortIntervals l) := by
  have h := List.sorted_insertionSort (fun a b : Interval => a.start ≤ b.start) l
  exact h

theorem clampI_mono (duration : ℚ) {a b : Interval} (h : a.start ≤ b.start) :
    (clampI duration a).start ≤ (clampI duration b).start :=
  max_le_max (le_refl 0) h

/-- The invariant of the full pass: sorted by start with gaps above the
tolerance between consecutive merged intervals. -/
theorem mergedIntervals_invariant (duration : ℚ) (l : List Interval) :
    List.Pairwise (fun a b =>
      a.start ≤ b.start ∧ a.«end» + MERGE_TOLERANCE < b.start)
      (mergedIntervals duration l) := by
  rw [mergedIntervals_eq]
  exact mergeList_pairwise _
    ((sortIntervals_sorted (l.filter (intervalValid duration))).map _
      fun a b h => clampI_mono duration h)

/-- C9: for every raw interval list and positive duration, the merged output
is sorted ascending by start, consecutive intervals are separated by a gap
strictly above the 0.1-second merge tolerance, and the intervals are
pairwise disjoint as sets of time points. -/
theorem claim9_merge_invariant (duration : ℚ) (l : List Interval)
    (hd : 0 < duration) :
    List.Pairwise (fun a b =>
      a.start ≤ b.start ∧
      a.«end» + MERGE_TOLERANCE < b.start ∧
      ∀ x : ℚ, ¬ (a.start ≤ x ∧ x ≤ a.«end» ∧ b.start ≤ x ∧ x ≤ b.«end»))
      (mergedIntervals duration l) := by
  refine (mergedIntervals_invariant duration l).imp ?_
  intro a b hab
  refine ⟨hab.1, hab.2, ?_⟩
  intro x hx
  have htol : (0:ℚ) < MERGE_TOLERANCE := by norm_num [MERGE_TOLERANCE]
  have h1 : x ≤ a.«end» := hx.2.1
  have h2 : b.start ≤ x := hx.2.2.1
  have := hab.2
  linarith

/-- Witness for C9 at a concrete input. -/
theorem claim9_witness :
    (0:ℚ) < 100 ∧
    List.Pairwise (fun a b =>
      a.start ≤ b.start ∧
      a.«end» + MERGE_TOLERANCE < b.start ∧
      ∀ x : ℚ, ¬ (a.start ≤ x ∧ x ≤ a.«end» ∧ b.start ≤ x ∧ x ≤ b.«end»))
      (mergedIntervals 100 [⟨50, 60⟩, ⟨0, 30⟩]) :=
  ⟨by norm_num, claim9_merge_invariant 100 [⟨50, 60⟩, ⟨0, 30⟩] (by norm_num)⟩

theorem intervalValid_iff (duration : ℚ) (i : Interval) :
    intervalValid duration i = true ↔
      i.start < i.«end» ∧ i.start < duration ∧
      MINIMUM_WATCH_TIME ≤ i.«end» - i.start ∧ i.«end» - i.start ≤ duration := by
  unfold intervalValid
  split_ifs with h1 h2 h3 h4 <;> simp_all [not_le, not_lt] <;> try linarith

/-- Merged ends stay below any common upper bound of the input ends. -/
theorem mergeList_end_le (B : ℚ) :
    ∀ l : List Interval, (∀ x ∈ l, x.«end» ≤ B) → ∀ y ∈ mergeList l, y.«end» ≤ B := by
  intro l
  induction l using mergeList.induct with
  | case1 => simp [mergeList_nil]
  | case2 a => simp [mergeList_single]
  | case3 a b t h ih =>
    intro hb y hy
    rw [mergeList_cons2, if_pos h] at hy
    refine ih ?_ y hy
    intro x hx
    rcases List.mem_cons.mp hx with hx | hx
    · rw [hx]
      exact max_le (hb a (by simp)) (hb b (by simp))
    · exact hb x (by simp [hx])
  | case4 a b t h ih =>
    intro hb y hy
    rw [mergeList_cons2, if_neg h] at hy
    rcases List.mem_cons.mp hy with hy | hy
    · rw [hy]; exact hb a (by simp)
    · exact ih (fun x hx => hb x (by simp [List.mem_cons.mp hx])) y hy

/-- Bounds on the merged output: starts lie in `[0, duration)` and ends stay
at most `duration`. -/
theorem mergedIntervals_bounds (duration : ℚ) (l : List Interval) (hd : 0 < duration) :
    ∀ y ∈ mergedIntervals duration l, 0 ≤ y.start ∧ y.start < duration ∧ y.«end» ≤ duration := by
  intro y hy
  rw [mergedIntervals_eq] at hy
  refine ⟨?_, ?_, ?_⟩
  · obtain ⟨x, hx, hyx⟩ := mergeList_start_mem _ y hy
    obtain ⟨z, _, hz⟩ := List.mem_map.mp hx
    rw [hyx, ← hz]
    exact le_max_left 0 z.start
  · obtain ⟨x, hx, hyx⟩ := mergeList_start_mem _ y hy
    obtain ⟨z, hzmem, hz⟩ := List.mem_map.mp hx
    have hzval : intervalValid duration z = true := by
      have : z ∈ l.filter (intervalValid duration) :=
        (List.perm_insertionSort (fun a b : Interval => a.start ≤ b.start) _).subset hzmem
      exact (List.mem_filter.mp this).2
    have hzlt : z.start < duration := ((intervalValid_iff duration z).mp hzval).2.1
    rw [hyx, ← hz]
    exact max_lt hd hzlt
  · refine mergeList_end_le duration _ ?_ y hy
    intro x hx
    obtain ⟨z, _, hz⟩ := List.mem_map.mp hx
    rw [← hz]
    exact min_le_left duration z.«end»

/-- Merging is the identity on lists whose consecutive intervals are already
separated by more than the tolerance. -/
theorem mergeList_of_gapped :
    ∀ l : List Interval,
      List.Pairwise (fun a b => a.«end» + MERGE_TOLERANCE < b.start) l →
      mergeList l = l := by
  intro l
  induction l using mergeList.induct with
  | case1 => intro _; exact mergeList_nil
  | case2 a => intro _; exact mergeList_single a
  | case3 a b t h ih =>
    intro hp
    exact absurd ((List.pairwise_cons.mp hp).1 b (by simp)) (not_lt.mpr h)
  | case4 a b t h ih =>
    intro hp
    rw [mergeList_cons2, if_neg h, ih (List.pairwise_cons.mp hp).2]

theorem map_id_of_mem {α : Type} (f : α → α) :
    ∀ l : List α, (∀ x ∈ l, f x = x) → l.map f = l := by
  intro l
  induction l with
  | nil => intro _; rfl
  | cons x t ih =>
    intro h
    rw [List.map_cons, h x (by simp), ih fun y hy => h y (by simp [hy])]

/-- Counterexample to C7 as stated: clamping can shrink a span below the
1-second minimum watch time, and the second pass then drops the interval.
With duration 100 the raw interval `{99.5, 101}` passes the filter (span
1.5) and is clamped to `{99.5, 100}` (span 0.5); re-running the pass on that
output discards it. -/
theorem claim7_counterexample :
    mergedIntervals 100 [⟨995/10, 101⟩] = [⟨995/10, 100⟩] ∧
    mergedIntervals 100 (mergedIntervals 100 [⟨995/10, 101⟩]) = [] ∧
    mergedIntervals 100 (mergedIntervals 100 [⟨995/10, 101⟩])
        ≠ mergedIntervals 100 [⟨995/10, 101⟩] ∧
    totalWatchedOf 100 (mergedIntervals 100 [⟨995/10, 101⟩]) ≠ totalWatchedOf 100 [⟨995/10, 101⟩] := by
  have h1 : mergedIntervals 100 [(⟨995/10, 101⟩ : Interval)] = [⟨995/10, 100⟩] := by
    norm_num [mergedIntervals, sortIntervals, mergeStep, clampI, intervalValid,
      MINIMUM_WATCH_TIME, MERGE_TOLERANCE, List.insertionSort, List.orderedInsert]
  have h2 : mergedIntervals 100 [(⟨995/10, 100⟩ : Interval)] = [] := by
    norm_num [mergedIntervals, sortIntervals, mergeStep, clampI, intervalValid,
      MINIMUM_WATCH_TIME, MERGE_TOLERANCE, List.insertionSort, List.orderedInsert]
  refine ⟨h1, by rw [h1]; exact h2, by rw [h1, h2]; simp, ?_⟩
  show totalOf (mergedIntervals 100 (mergedIntervals 100 [⟨995/10, 101⟩]))
      ≠ totalOf (mergedIntervals 100 [⟨995/10, 101⟩])
  rw [h1, h2]
  norm_num [totalOf]

/-- C7 (amended): the filter–sort–merge pass is idempotent on its own output
provided every merged interval's span still meets the 1-second minimum watch
floor (edge clamping can shrink a span below the floor, in which case a
second pass drops that interval); under that proviso the re-merged set, the
total and the percentage are unchanged. -/
theorem claim7_amended (duration : ℚ) (l : List Interval) (hd : 0 < duration)
    (hmin : ∀ i ∈ mergedIntervals duration l,
      MINIMUM_WATCH_TIME ≤ i.«end» - i.start) :
    mergedIntervals duration (mergedIntervals duration l) = mergedIntervals duration l ∧
    totalWatchedOf duration (mergedIntervals duration l) = totalWatchedOf duration l ∧
    rawPercentage duration (mergedIntervals duration l) = rawPercentage duration l := by
  have hmintol : (0:ℚ) < MINIMUM_WATCH_TIME := by norm_num [MINIMUM_WATCH_TIME]
  have hbounds := mergedIntervals_bounds duration l hd
  have hinv := mergedIntervals_invariant duration l
  have hvalid : ∀ i ∈ mergedIntervals duration l, intervalValid duration i = true := by
    intro i hi
    obtain ⟨h0, hsd, hed⟩ := hbounds i hi
    refine (intervalValid_iff duration i).mpr ⟨?_, hsd, hmin i hi, ?_⟩
    · have := hmin i hi
      linarith
    · linarith
  have hfilter : (mergedIntervals duration l).filter (intervalValid duration)
      = mergedIntervals duration l := List.filter_eq_self.mpr hvalid
  have hsorted : List.Pairwise (fun a b : Interval => a.start ≤ b.start)
      (mergedIntervals duration l) := hinv.imp fun h => h.1
  have hsort : sortIntervals (mergedIntervals duration l) = mergedIntervals duration l :=
    List.Sorted.insertionSort_eq hsorted
  have hclamp : (mergedIntervals duration l).map (clampI duration)
      = mergedIntervals duration l := by
    refine map_id_of_mem _ _ ?_
    intro x hx
    obtain ⟨h0, _, hed⟩ := hbounds x hx
    show (⟨max 0 x.start, min duration x.«end»⟩ : Interval) = x
    rw [max_eq_right h0, min_eq_right hed]
  have hgap : List.Pairwise (fun a b : Interval => a.«end» + MERGE_TOLERANCE < b.start)
      (mergedIntervals duration l) := hinv.imp fun h => h.2
  have hmain : mergedIntervals duration (mergedIntervals duration l)
      = mergedIntervals duration l := by
    rw [mergedIntervals_eq, hfilter, hsort, hclamp, mergeList_of_gapped _ hgap]
  refine ⟨hmain, ?_, ?_⟩
  · show totalOf (mergedIntervals duration (mergedIntervals duration l)) = _
    rw [hmain]
    rfl
  · show percentageOf duration (totalOf (mergedIntervals duration (mergedIntervals duration l))) = _
    rw [hmain]
    rfl

/-- Witness for C7 (amended) on two already separated intervals. -/
theorem claim7_witness :
    mergedIntervals 100 (mergedIntervals 100 [⟨0, 30⟩, ⟨50, 60⟩])
        = mergedIntervals 100 [⟨0, 30⟩, ⟨50, 60⟩] ∧
    totalWatchedOf 100 (mergedIntervals 100 [⟨0, 30⟩, ⟨50, 60⟩])
        = totalWatchedOf 100 [⟨0, 30⟩, ⟨50, 60⟩] :=
  have h := claim7_amended 100 [⟨0, 30⟩, ⟨50, 60⟩] (by norm_num)
    (by
      have : mergedIntervals 100 [(⟨0, 30⟩ : Interval), ⟨50, 60⟩] = [⟨0, 30⟩, ⟨50, 60⟩] := by
        norm_num [mergedIntervals, sortIntervals, mergeStep, clampI, intervalValid,
          MINIMUM_WATCH_TIME, MERGE_TOLERANCE, List.insertionSort, List.orderedInsert]
      rw [this]
      intro i hi
      rcases List.mem_cons.mp hi with h | h
      · rw [h]; norm_num [MINIMUM_WATCH_TIME]
      · rcases List.mem_cons.mp h with h | h
        · rw [h]; norm_num [MINIMUM_WATCH_TIME]
        · simp at h)
  ⟨h.1, h.2.1⟩

theorem endsMax_nil (e : ℚ) : endsMax e [] = e := rfl

theorem endsMax_cons (e : ℚ) (x : Interval) (l : List Interval) :
    endsMax e (x :: l) = endsMax (max e x.«end») l := rfl

theorem endsMax_perm (e : ℚ) {l₁ l₂ : List Interval} (h : l₁.Perm l₂) :
    endsMax e l₁ = endsMax e l₂ :=
  h.foldl_eq e

theorem endsMax_max_out (u v : ℚ) :
    ∀ l : List Interval, endsMax (max u v) l = max u (endsMax v l) := by
  intro l
  induction l generalizing v with
  | nil => rfl
  | cons x t ih => rw [endsMax_cons, max_assoc, ih, ← endsMax_cons]

theorem endsMax_mem_absorb (x : Interval) :
    ∀ (l : List Interval) (e : ℚ), x ∈ l → endsMax (max e x.«end») l = endsMax e l := by
  intro l
  induction l with
  | nil => intro e h; simp at h
  | cons y t ih =>
    intro e h
    rcases List.mem_cons.mp h with h | h
    · subst h
      rw [endsMax_cons, endsMax_cons, max_assoc, max_self]
    · rw [endsMax_cons, endsMax_cons,
        show max (max e x.«end») y.«end» = max (max e y.«end») x.«end» from by
          rw [max_assoc, max_assoc, max_comm x.«end» y.«end»],
        ih _ h]

/-- The largest end of a nonempty group depends only on its multiset. -/
theorem endsMax_head_eq {b₁ b₂ : Interval} {run₁ run₂ : List Interval}
    (hperm : (b₁ :: run₁).Perm (b₂ :: run₂)) :
    endsMax b₁.«end» run₁ = endsMax b₂.«end» run₂ := by
  have h1 : endsMax b₁.«end» run₁ = endsMax b₁.«end» (b₁ :: run₁) := by
    rw [endsMax_cons, max_self]
  have h2 : endsMax b₂.«end» run₂ = endsMax b₂.«end» (b₂ :: run₂) := by
    rw [endsMax_cons, max_self]
  rw [h1, h2, endsMax_perm _ hperm, endsMax_cons, endsMax_cons, max_self]
  rcases List.mem_cons.mp (hperm.subset (List.mem_cons_self b₁ run₁)) with h | h
  · rw [h, max_self]
  · rw [max_comm, endsMax_mem_absorb b₁ run₂ _ h]

/-- Collapsing a whole equal-start group into the running interval. -/
theorem mergeList_run_acc :
    ∀ (run : List Interval) (a b : Interval) (rest : List Interval),
      (∀ x ∈ run, x.start = b.start) →
      b.start ≤ a.«end» + MERGE_TOLERANCE →
      mergeList (a :: b :: (run ++ rest)) =
        mergeList ({ start := a.start,
                     «end» := max a.«end» (endsMax b.«end» run) } :: rest) := by
  intro run
  induction run with
  | nil =>
    intro a b rest _ hcond
    rw [List.nil_append, mergeList_cons2, if_pos hcond, endsMax_nil]
  | cons c run' ih =>
    intro a b rest hrun hcond
    have hc : c.start = b.start := hrun c (by simp)
    have htol : (0:ℚ) ≤ MERGE_TOLERANCE := by norm_num [MERGE_TOLERANCE]
    have hcond' : c.start ≤ (max a.«end» b.«end») + MERGE_TOLERANCE := by
      have := le_max_left a.«end» b.«end»
      rw [hc]
      linarith
    have hrun' : ∀ x ∈ run', x.start = c.start := fun x hx => by
      rw [hrun x (by simp [hx]), hc]
    rw [List.cons_append, mergeList_cons2, if_pos hcond,
      ih { start := a.start, «end» := max a.«end» b.«end» } c rest hrun' hcond']
    have heq : max (max a.«end» b.«end») (endsMax c.«end» run')
        = max a.«end» (endsMax b.«end» (c :: run')) := by
      rw [endsMax_cons, ← endsMax_max_out, ← endsMax_max_out, max_assoc]
    rw [heq]

/-- Collapsing the leading equal-start group of a list. -/
theorem mergeList_run :
    ∀ (run : List Interval) (b : Interval) (rest : List Interval),
      (∀ x ∈ run, x.start = b.start) →
      b.start < b.«end» →
      mergeList (b :: (run ++ rest)) =
        mergeList ({ start := b.start, «end» := endsMax b.«end» run } :: rest) := by
  intro run
  induction run with
  | nil => intro b rest _ _; rw [List.nil_append, endsMax_nil]
  | cons c run' ih =>
    intro b rest hrun hwf
    have hc : c.start = b.start := hrun c (by simp)
    have htol : (0:ℚ) ≤ MERGE_TOLERANCE := by norm_num [MERGE_TOLERANCE]
    have hcond : c.start ≤ b.«end» + MERGE_TOLERANCE := by
      rw [hc]; linarith
    have hrun' : ∀ x ∈ run', x.start = b.start := fun x hx => hrun x (by simp [hx])
    have hwf' : b.start < max b.«end» c.«end» := lt_of_lt_of_le hwf (le_max_left _ _)
    rw [List.cons_append, mergeList_cons2, if_pos hcond,
      ih { start := b.start, «end» := max b.«end» c.«end» } rest hrun' hwf',
      ← endsMax_cons]

/-- In a start-sorted list bounded below by `s`, the equal-`s` elements form
the `takeWhile` prefix, the rest all start strictly above `s`. -/
theorem run_decomp :
    ∀ (t : List Interval) (s : ℚ),
      List.Pairwise (fun a b => a.start ≤ b.start) t →
      (∀ x ∈ t, s ≤ x.start) →
      t.filter (fun x => decide (x.start = s)) = t.takeWhile (fun x => decide (x.start = s)) ∧
      t.filter (fun x => !decide (x.start = s)) = t.dropWhile (fun x => decide (x.start = s)) ∧
      ∀ x ∈ t.dropWhile (fun x => decide (x.start = s)), s < x.start := by
  intro t
  induction t with
  | nil => intro s _ _; exact ⟨rfl, rfl, by simp⟩
  | cons x t' ih =>
    intro s hp hge
    rcases List.pairwise_cons.mp hp with ⟨hx, hp'⟩
    by_cases hxs : x.start = s
    · have hge' : ∀ y ∈ t', s ≤ y.start := fun y hy => hge y (by simp [hy])
      obtain ⟨f1, f2, f3⟩ := ih s hp' hge'
      have hdec : decide (x.start = s) = true := decide_eq_true hxs
      refine ⟨?_, ?_, ?_⟩
      · rw [List.filter_cons, List.takeWhile_cons]
        simp [hdec, f1]
      · rw [List.filter_cons, List.dropWhile_cons]
        simp [hdec, f2]
      · rw [List.dropWhile_cons]
        simp only [hdec, if_true]
        exact f3
    · have hxgt : s < x.start := lt_of_le_of_ne (hge x (by simp)) (Ne.symm hxs)
      have hall : ∀ y ∈ t', s < y.start := fun y hy => lt_of_lt_of_le hxgt (hx y hy)
      have hnone : ∀ y ∈ t', ¬ y.start = s := fun y hy => ne_of_gt (hall y hy)
      refine ⟨?_, ?_, ?_⟩
      · rw [List.filter_cons, List.takeWhile_cons]
        simp only [decide_eq_false hxs, Bool.false_eq_true, if_false]
        exact List.filter_eq_nil_iff.mpr fun y hy => by simp [hnone y hy]
      · rw [List.filter_cons, List.dropWhile_cons]
        simp only [decide_eq_false hxs, Bool.not_false, Bool.false_eq_true, if_false, if_true]
        exact congrArg (x :: ·) (List.filter_eq_self.mpr fun y hy => by simp [hnone y hy])
      · rw [List.dropWhile_cons]
        simp only [decide_eq_false hxs, Bool.false_eq_true, if_false]
        intro y hy
        rcases List.mem_cons.mp hy with hy | hy
        · rw [hy]; exact hxgt
        · exact hall y hy

/-- Start-sorted permutations share their head's start. -/
theorem head_start_eq {b₁ b₂ : Interval} {t₁ t₂ : List Interval}
    (hperm : (b₁ :: t₁).Perm (b₂ :: t₂))
    (hs1 : List.Pairwise (fun a b => a.start ≤ b.start) (b₁ :: t₁))
    (hs2 : List.Pairwise (fun a b => a.start ≤ b.start) (b₂ :: t₂)) :
    b₂.start = b₁.start := by
  have h2 : b₂ ∈ b₁ :: t₁ := hperm.symm.subset (List.mem_cons_self _ _)
  have h1 : b₁ ∈ b₂ :: t₂ := hperm.subset (List.mem_cons_self _ _)
  apply le_antisymm
  · rcases List.mem_cons.mp h1 with h | h
    · exact le_of_eq (congrArg Interval.start h.symm)
    · exact (List.pairwise_cons.mp hs2).1 b₁ h
  · rcases List.mem_cons.mp h2 with h | h
    · exact le_of_eq (congrArg Interval.start h.symm)
    · exact (List.pairwise_cons.mp hs1).1 b₂ h

/-- Joint induction: merging is invariant under permutation of start-sorted
lists of well-formed (start < end) intervals, both bare and with a running
accumulator in front. -/
theorem mergeList_perm_aux :
    ∀ n : ℕ,
      (∀ l₁ l₂ : List Interval, l₁.length ≤ n → l₁.Perm l₂ →
        List.Pairwise (fun a b => a.start ≤ b.start) l₁ →
        List.Pairwise (fun a b => a.start ≤ b.start) l₂ →
        (∀ x ∈ l₁, x.start < x.«end») →
        mergeList l₁ = mergeList l₂) ∧
      (∀ (a : Interval) (l₁ l₂ : List Interval), l₁.length ≤ n → l₁.Perm l₂ →
        List.Pairwise (fun a b => a.start ≤ b.start) l₁ →
        List.Pairwise (fun a b => a.start ≤ b.start) l₂ →
        (∀ x ∈ l₁, x.start < x.«end») →
        mergeList (a :: l₁) = mergeList (a :: l₂)) := by
  intro n
  induction n with
  | zero =>
    have hz : ∀ l₁ l₂ : List Interval, l₁.length ≤ 0 → l₁.Perm l₂ → l₁ = [] ∧ l₂ = [] := by
      intro l₁ l₂ hlen hperm
      have h1 : l₁ = [] := List.length_eq_zero.mp (Nat.le_zero.mp hlen)
      subst h1
      exact ⟨rfl, hperm.nil_eq.symm⟩
    constructor
    · intro l₁ l₂ hlen hperm _ _ _
      obtain ⟨e1, e2⟩ := hz l₁ l₂ hlen hperm
      rw [e1, e2]
    · intro a l₁ l₂ hlen hperm _ _ _
      obtain ⟨e1, e2⟩ := hz l₁ l₂ hlen hperm
      rw [e1, e2]
  | succ n ih =>
    obtain ⟨ihT, ihQ⟩ := ih
    have hkey : ∀ (b₁ b₂ : Interval) (t₁ t₂ : List Interval),
        (b₁ :: t₁).length ≤ n + 1 →
        (b₁ :: t₁).Perm (b₂ :: t₂) →
        List.Pairwise (fun a b => a.start ≤ b.start) (b₁ :: t₁) →
        List.Pairwise (fun a b => a.start ≤ b.start) (b₂ :: t₂) →
        ∃ (run₁ rest₁ run₂ rest₂ : List Interval),
          t₁ = run₁ ++ rest₁ ∧ t₂ = run₂ ++ rest₂ ∧
          (∀ x ∈ run₁, x.start = b₁.start) ∧ (∀ x ∈ run₂, x.start = b₂.start) ∧
          (b₁ :: run₁).Perm (b₂ :: run₂) ∧ rest₁.Perm rest₂ ∧
          rest₁.length ≤ n ∧
          List.Pairwise (fun a b => a.start ≤ b.start) rest₁ ∧
          List.Pairwise (fun a b => a.start ≤ b.start) rest₂ ∧
          (∀ x ∈ rest₁, x ∈ t₁) := by
      intro b₁ b₂ t₁ t₂ hlen hperm hs1 hs2
      have hbs : b₂.start = b₁.start := head_start_eq hperm hs1 hs2
      rcases List.pairwise_cons.mp hs1 with ⟨hhd1, hp1⟩
      rcases List.pairwise_cons.mp hs2 with ⟨hhd2, hp2⟩
      obtain ⟨fa1, fb1, _⟩ := run_decomp t₁ b₁.start hp1 hhd1
      obtain ⟨fa2, fb2, _⟩ := run_decomp t₂ b₁.start hp2 (fun x hx => hbs ▸ hhd2 x hx)
      refine ⟨t₁.takeWhile (fun x => decide (x.start = b₁.start)),
        t₁.dropWhile (fun x => decide (x.start = b₁.start)),
        t₂.takeWhile (fun x => decide (x.start = b₁.start)),
        t₂.dropWhile (fun x => decide (x.start = b₁.start)),
        (List.takeWhile_append_dropWhile _ t₁).symm,
        (List.takeWhile_append_dropWhile _ t₂).symm, ?_, ?_, ?_, ?_, ?_, ?_, ?_, ?_⟩
      · intro x hx
        have h := List.mem_takeWhile_imp hx
        simp only [decide_eq_true_eq] at h
        exact h
      · intro x hx
        have h := List.mem_takeWhile_imp hx
        simp only [decide_eq_true_eq] at h
        exact h.trans hbs.symm
      · have e₁ : b₁ :: t₁.takeWhile (fun x => decide (x.start = b₁.start))
            = (b₁ :: t₁).filter (fun x => decide (x.start = b₁.start)) := by
          rw [List.filter_cons, if_pos (by simp), fa1]
        have e₂ : b₂ :: t₂.takeWhile (fun x => decide (x.start = b₁.start))
            = (b₂ :: t₂).filter (fun x => decide (x.start = b₁.start)) := by
          rw [List.filter_cons, if_pos (by simp [hbs]), fa2]
        rw [e₁, e₂]
        exact hperm.filter _
      · have e₁ : t₁.dropWhile (fun x => decide (x.start = b₁.start))
            = (b₁ :: t₁).filter (fun x => !decide (x.start = b₁.start)) := by
          rw [List.filter_cons, if_neg (by simp), fb1]
        have e₂ : t₂.dropWhile (fun x => decide (x.start = b₁.start))
            = (b₂ :: t₂).filter (fun x => !decide (x.start = b₁.start)) := by
          rw [List.filter_cons, if_neg (by simp [hbs]), fb2]
        rw [e₁, e₂]
        exact hperm.filter _
      · have h1 : t₁.length ≤ n := by simpa using hlen
        exact le_trans (List.dropWhile_sublist _).length_le h1
      · exact List.Pairwise.sublist (List.dropWhile_sublist _) hp1
      · exact List.Pairwise.sublist (List.dropWhile_sublist _) hp2
      · intro x hx
        exact (List.dropWhile_sublist _).subset hx
    have hT : ∀ l₁ l₂ : List Interval, l₁.length ≤ n + 1 → l₁.Perm l₂ →
        List.Pairwise (fun a b => a.start ≤ b.start) l₁ →
        List.Pairwise (fun a b => a.start ≤ b.start) l₂ →
        (∀ x ∈ l₁, x.start < x.«end») →
        mergeList l₁ = mergeList l₂ := by
      intro l₁ l₂ hlen hperm hs1 hs2 hwf
      cases l₁ with
      | nil => rw [← hperm.nil_eq]
      | cons b₁ t₁ =>
        cases l₂ with
        | nil => exact absurd hperm.symm.nil_eq (by simp)
        | cons b₂ t₂ =>
          have hbs : b₂.start = b₁.start := head_start_eq hperm hs1 hs2
          obtain ⟨run₁, rest₁, run₂, rest₂, ht₁, ht₂, hr₁, hr₂, hrunperm, hrestperm,
            hlenr, hsr₁, hsr₂, hsub⟩ := hkey b₁ b₂ t₁ t₂ hlen hperm hs1 hs2
          have hwf₁ : b₁.start < b₁.«end» := hwf b₁ (by simp)
          have hwf₂ : b₂.start < b₂.«end» := hwf b₂ (hperm.symm.subset (by simp))
          have hwfr : ∀ x ∈ rest₁, x.start < x.«end» := fun x hx =>
            hwf x (by simp [hsub x hx])
          rw [ht₁, ht₂, mergeList_run run₁ b₁ rest₁ hr₁ hwf₁,
            mergeList_run run₂ b₂ rest₂ hr₂ hwf₂, hbs, endsMax_head_eq hrunperm]
          exact ihQ _ rest₁ rest₂ hlenr hrestperm hsr₁ hsr₂ hwfr
    refine ⟨hT, ?_⟩
    intro a l₁ l₂ hlen hperm hs1 hs2 hwf
    cases l₁ with
    | nil => rw [← hperm.nil_eq]
    | cons b₁ t₁ =>
      cases l₂ with
      | nil => exact absurd hperm.symm.nil_eq (by simp)
      | cons b₂ t₂ =>
        have hbs : b₂.start = b₁.start := head_start_eq hperm hs1 hs2
        by_cases hcond : b₁.start ≤ a.«end» + MERGE_TOLERANCE
        · obtain ⟨run₁, rest₁, run₂, rest₂, ht₁, ht₂, hr₁, hr₂, hrunperm, hrestperm,
            hlenr, hsr₁, hsr₂, hsub⟩ := hkey b₁ b₂ t₁ t₂ hlen hperm hs1 hs2
          have hwfr : ∀ x ∈ rest₁, x.start < x.«end» := fun x hx =>
            hwf x (by simp [hsub x hx])
          rw [ht₁, ht₂, mergeList_run_acc run₁ a b₁ rest₁ hr₁ hcond,
            mergeList_run_acc run₂ a b₂ rest₂ hr₂ (by rw [hbs]; exact hcond),
            endsMax_head_eq hrunperm]
          exact ihQ _ rest₁ rest₂ hlenr hrestperm hsr₁ hsr₂ hwfr
        · rw [mergeList_cons2 a b₁ t₁, if_neg hcond, mergeList_cons2 a b₂ t₂,
            if_neg (by rw [hbs]; exact hcond)]
          exact congrArg (List.cons a) (hT (b₁ :: t₁) (b₂ :: t₂) hlen hperm hs1 hs2 hwf)

/-- Merging is permutation-invariant on start-sorted lists of intervals with
`start < end`. -/
theorem mergeList_perm {l₁ l₂ : List Interval} (hperm : l₁.Perm l₂)
    (hs1 : List.Pairwise (fun a b => a.start ≤ b.start) l₁)
    (hs2 : List.Pairwise (fun a b => a.start ≤ b.start) l₂)
    (hwf : ∀ x ∈ l₁, x.start < x.«end») :
    mergeList l₁ = mergeList l₂ :=
  (mergeList_perm_aux l₁.length).1 l₁ l₂ le_rfl hperm hs1 hs2 hwf

/-- Counterexample to C8 as stated: two permutations of the same raw list
merge to different results.  Both raw intervals start at -10 (so the stable
sort keeps their input order), both pass the filter, and clamping inverts
`{-10, -5}` into `{0, -5}` whose end lies below its start; processed first it
cannot absorb `{0, 3}`, processed second it is absorbed, so the merged sets,
totals and percentages differ. -/
theorem claim8_counterexample :
    ([⟨-10, -5⟩, ⟨-10, 3⟩] : List Interval).Perm [⟨-10, 3⟩, ⟨-10, -5⟩] ∧
    mergedIntervals 20 [⟨-10, -5⟩, ⟨-10, 3⟩] = [⟨0, -5⟩, ⟨0, 3⟩] ∧
    mergedIntervals 20 [⟨-10, 3⟩, ⟨-10, -5⟩] = [⟨0, 3⟩] ∧
    totalWatchedOf 20 [⟨-10, -5⟩, ⟨-10, 3⟩] ≠ totalWatchedOf 20 [⟨-10, 3⟩, ⟨-10, -5⟩] ∧
    rawPercentage 20 [⟨-10, -5⟩, ⟨-10, 3⟩] ≠ rawPercentage 20 [⟨-10, 3⟩, ⟨-10, -5⟩] := by
  refine ⟨List.Perm.swap (⟨-10, 3⟩ : Interval) ⟨-10, -5⟩ [], ?_, ?_, ?_, ?_⟩ <;>
    norm_num [mergedIntervals, sortIntervals, mergeStep, clampI, intervalValid,
      rawPercentage, percentageOf, totalWatchedOf, totalOf,
      MINIMUM_WATCH_TIME, MERGE_TOLERANCE, List.insertionSort, List.orderedInsert]

/-- C8 (amended): for positive duration, the filter–sort–merge pass gives the
same merged interval list, total and percentage for every permutation of the
same raw interval list, provided all raw intervals have nonnegative starts
(so that clamping cannot invert an interval; with negative starts the result
can depend on the input order among equal starts). -/
theorem claim8_amended (duration : ℚ) (l₁ l₂ : List Interval) (hd : 0 < duration)
    (hperm : l₁.Perm l₂) (hpos : ∀ i ∈ l₁, 0 ≤ i.start) :
    mergedIntervals duration l₁ = mergedIntervals duration l₂ ∧
    totalWatchedOf duration l₁ = totalWatchedOf duration l₂ ∧
    rawPercentage duration l₁ = rawPercentage duration l₂ := by
  have hmain : mergedIntervals duration l₁ = mergedIntervals duration l₂ := by
    rw [mergedIntervals_eq, mergedIntervals_eq]
    have hsortperm₁ := List.perm_insertionSort (fun a b : Interval => a.start ≤ b.start)
      (l₁.filter (intervalValid duration))
    have hsortperm₂ := List.perm_insertionSort (fun a b : Interval => a.start ≤ b.start)
      (l₂.filter (intervalValid duration))
    have hfperm : (l₁.filter (intervalValid duration)).Perm
        (l₂.filter (intervalValid duration)) := hperm.filter _
    have hLperm : ((sortIntervals (l₁.filter (intervalValid duration))).map
          (clampI duration)).Perm
        ((sortIntervals (l₂.filter (intervalValid duration))).map (clampI duration)) :=
      ((hsortperm₁.trans hfperm).trans hsortperm₂.symm).map _
    have hwf : ∀ x ∈ (sortIntervals (l₁.filter (intervalValid duration))).map
        (clampI duration), x.start < x.«end» := by
      intro x hx
      obtain ⟨z, hz, hzx⟩ := List.mem_map.mp hx
      have hzf : z ∈ l₁.filter (intervalValid duration) := hsortperm₁.subset hz
      have hzl : z ∈ l₁ := (List.mem_filter.mp hzf).1
      have hzv := (intervalValid_iff duration z).mp (List.mem_filter.mp hzf).2
      have hz0 : 0 ≤ z.start := hpos z hzl
      rw [← hzx]
      show max 0 z.start < min duration z.«end»
      rw [max_eq_right hz0]
      exact lt_min hzv.2.1 hzv.1
    exact mergeList_perm hLperm
      ((sortIntervals_sorted _).map _ fun a b h => clampI_mono duration h)
      ((sortIntervals_sorted _).map _ fun a b h => clampI_mono duration h)
      hwf
  refine ⟨hmain, ?_, ?_⟩
  · show totalOf (mergedIntervals duration l₁) = totalOf (mergedIntervals duration l₂)
    rw [hmain]
  · show percentageOf duration (totalOf (mergedIntervals duration l₁)) = _
    rw [hmain]
    rfl

/-- Witness for C8 (amended): swapping two nonnegative intervals leaves the
pass unchanged. -/
theorem claim8_witness :
    mergedIntervals 100 [⟨0, 30⟩, ⟨50, 60⟩] = mergedIntervals 100 [⟨50, 60⟩, ⟨0, 30⟩] ∧
    totalWatchedOf 100 [⟨0, 30⟩, ⟨50, 60⟩] = totalWatchedOf 100 [⟨50, 60⟩, ⟨0, 30⟩] :=
  have h := claim8_amended 100 [⟨0, 30⟩, ⟨50, 60⟩] [⟨50, 60⟩, ⟨0, 30⟩] (by norm_num)
    (List.Perm.swap (⟨50, 60⟩ : Interval) ⟨0, 30⟩ [])
    (by
      intro i hi
      rcases List.mem_cons.mp hi with h | h
      · rw [h]
      · rcases List.mem_cons.mp h with h | h
        · rw [h]; norm_num
        · simp at h)
  ⟨h.1, h.2.1⟩

end VideoTrack
